import Mathlib

/-!
Shallow embedding of `dfvsync.py` (mooncake4132/dfvsync): a tool that keeps a
Docker build pipeline in sync with upstream source releases.  Strings are
modelled by Lean `String` / `List Char`; Python string comparison (code-point
lexicographic) coincides with Lean's `String` order.  Regular-expression
matching is embedded directly for the one concrete pattern the program uses,
and abstracted as a match oracle where the pattern is configuration data.
-/

deriving instance DecidableEq for Except

namespace Dfvsync

/-- Characters matched by Python's `\s` class (ASCII range), as used in the
regex `[\sv](\d+(?:\.\d+)*)` of `get_version`. -/
def isPySpace (c : Char) : Bool :=
  c = ' ' || c = '\t' || c = '\n' || c = '\r' || c = '\x0b' || c = '\x0c'

/-- Greedy parse of the `(?:\.\d+)*` part of the version regex: consumes
repeated groups of a dot followed by a maximal nonempty run of digits.
`fuel` bounds the recursion depth only; every step consumes at least two
characters of the list, so `l.length` fuel (as supplied by `dotGroups`)
never runs out before the parse stops on its own. -/
def dotGroupsF : Nat → List Char → List Char
  | 0, _ => []
  | fuel + 1, '.' :: c :: cs =>
    if c.isDigit then
      '.' :: c :: (cs.takeWhile Char.isDigit) ++ dotGroupsF fuel (cs.dropWhile Char.isDigit)
    else []
  | _ + 1, _ => []

/-- Greedy parse of `(?:\.\d+)*` at the start of `l`. -/
def dotGroups (l : List Char) : List Char := dotGroupsF l.length l

/-- Attempt of the capture group `(\d+(?:\.\d+)*)` at the start of `l`:
a maximal digit run followed by greedy dot-groups, `none` if `l` does not
start with a digit. -/
def matchCapture : List Char → Option (List Char)
  | [] => none
  | c :: cs =>
    if c.isDigit then
      some (c :: cs.takeWhile Char.isDigit ++ dotGroups (cs.dropWhile Char.isDigit))
    else none

/-- Leftmost search of `re.search('[\sv](\d+(?:\.\d+)*)', tag)`: scan for the
first position whose character is `v` or whitespace and where the capture
group matches immediately after it. -/
def searchVersion : List Char → Option (List Char)
  | [] => none
  | c :: cs =>
    if c = 'v' || isPySpace c then
      match matchCapture cs with
      | some g => some g
      | none => searchVersion cs
    else searchVersion cs

/-- Model of `get_version(tag)` (dfvsync.py lines 28-34): the capture group of
the first match of `[\sv](\d+(?:\.\d+)*)` in `tag`, or `None` (with a logged
warning) when there is no match. -/
def get_version (tag : String) : Option String :=
  (searchVersion tag.data).map fun l => ⟨l⟩

/-- Model of the namedtuple `Release = namedtuple('Release', 'version name url tag archive_url')`. -/
structure Release where
  version : String
  name : String
  url : String
  tag : String
  archive_url : String
deriving DecidableEq, Repr

/-- Model of the namedtuple `DockerBuild = namedtuple('DockerBuild', 'version tag status')`. -/
structure DockerBuild where
  version : String
  tag : String
  status : Int
deriving DecidableEq, Repr

/-- One element of the JSON array returned by the Github releases endpoint,
restricted to the fields `GithubRepo.get_releases` reads. -/
structure GithubReleaseEntry where
  tag_name : String
  name : String
  url : String
  tarball_url : String
deriving DecidableEq, Repr

/-- One element of the `results` array returned by the Dockerhub build-history
endpoint, restricted to the fields `DockerhubRepo.get_builds` reads. -/
structure BuildEntry where
  dockertag_name : String
  status : Int
deriving DecidableEq, Repr

/-- Python string `<` (lexicographic by Unicode code point), computed
directly on the character lists. -/
def strLtB : List Char → List Char → Bool
  | [], [] => false
  | [], _ :: _ => true
  | _ :: _, [] => false
  | a :: as, b :: bs =>
    if a.toNat < b.toNat then true
    else if b.toNat < a.toNat then false
    else strLtB as bs

/-- Python string `<=` (code-point lexicographic), as a Bool. -/
def strLe (a b : String) : Bool := !(strLtB b.data a.data)

/-- Insert `x` into the already sorted list `l`, after every element `y` with
`le y x`.  Building a sort from this insertion reproduces the ordering and the
stability of Python's `sorted`. -/
def insertR (le : α → α → Bool) (x : α) : List α → List α
  | [] => [x]
  | y :: ys => if le y x then y :: insertR le x ys else x :: y :: ys

/-- Model of Python's `sorted(l, key=...)`: a stable ascending sort.  Elements
are taken in input order and each is placed after all elements already known
to be `le`-below-or-equal, which is exactly the stable-ascending specification
of `sorted`. -/
def pySorted (le : α → α → Bool) (l : List α) : List α :=
  l.foldl (fun acc x => insertR le x acc) []

/-- Assignment `d[k] = v` on a Python dict modelled as an association list in
insertion order: an existing key keeps its position and gets the new value, a
new key is appended. -/
def dictInsert (k : String) (v : Release) (d : List (String × Release)) :
    List (String × Release) :=
  if (d.map Prod.fst).contains k then
    d.map fun p => if p.1 = k then (k, v) else p
  else d ++ [(k, v)]

/-- The `Release` record built from one Github entry whose tag extracted to
version `v` (dfvsync.py lines 139-144). -/
def releaseOf (e : GithubReleaseEntry) (v : String) : Release :=
  ⟨v, e.name, e.url, e.tag_name, e.tarball_url⟩

/-- One iteration of the loop body of `GithubRepo.get_releases`: entries whose
tag yields no version are skipped, the others are stored in a dict keyed by
the extracted version (so a later entry with the same version overwrites an
earlier one). -/
def releasesStep (d : List (String × Release)) (e : GithubReleaseEntry) :
    List (String × Release) :=
  match get_version e.tag_name with
  | none => d
  | some v => dictInsert v (releaseOf e v) d

/-- Model of `GithubRepo.get_releases` (dfvsync.py lines 130-146): consume the
first `top` entries, build a dict keyed by extracted version, then return
`sorted(releases.values(), key=lambda r: r.version)` — note the key is the raw
version STRING, so the sort is lexicographic on code points. -/
def get_releases (entries : List GithubReleaseEntry) (top : Nat) : List Release :=
  pySorted (fun a b => strLe a.version b.version)
    (((entries.take top).foldl releasesStep []).map Prod.snd)

/-- Errors a modelled Python function can raise. -/
inductive PyError where
  | nameError (name : String)
deriving DecidableEq, Repr

/-- Model of `DockerhubRepo.get_builds` (dfvsync.py lines 169-188).  Entries
whose tag is in `IGNORE_TAGS = {'latest'}`, whose tag yields no version, or
whose status is negative are skipped.  For a surviving entry the source
executes `builds[build.version] = DockerBuild(version=version,
tag=release_dict['dockertag_name'], status=builds_dict['status'])`, whose
right-hand side reads the name `release_dict` — a local of a DIFFERENT method
that is not in scope here (and `build` is equally undefined) — so the first
surviving entry raises `NameError: name 'release_dict' is not defined`.
When every entry is skipped the dict stays empty and the sorted empty list is
returned. -/
def get_builds : List BuildEntry → Except PyError (List DockerBuild)
  | [] => .ok []
  | e :: rest =>
    if e.dockertag_name = "latest" then get_builds rest
    else
      match get_version e.dockertag_name with
      | none => get_builds rest
      | some _ =>
        if e.status < 0 then get_builds rest
        else .error (.nameError "release_dict")

/-- Split a character list on `'.'`, like Python's `split('.')`. -/
def splitComponents : List Char → List (List Char)
  | [] => [[]]
  | '.' :: cs => [] :: splitComponents cs
  | c :: cs =>
    match splitComponents cs with
    | comp :: comps => (c :: comp) :: comps
    | [] => [[c]]

/-- Numeric value of a digit run (most significant first). -/
def digitsToNat (l : List Char) : Nat :=
  l.foldl (fun a c => a * 10 + (c.toNat - 48)) 0

/-- Model of `pkg_resources.parse_version` on the dotted-numeric version
strings this program feeds it (every release version is produced by
`get_version` and hence matches `\d+(\.\d+)*`): the sequence of integer
components.  Comparison of parsed versions is componentwise numeric with the
shorter sequence right-padded with zeros, which `verLtB` implements. -/
def parse_version (s : String) : List Nat :=
  (splitComponents s.data).map digitsToNat

/-- Strict numeric order on integer-component sequences: componentwise with
the shorter side right-padded with zeros (the order `pkg_resources`' parsed
versions obey on dotted-numeric input). -/
def verLtB : List Nat → List Nat → Bool
  | [], ys => ys.any fun y => 0 < y
  | _ :: _, [] => false
  | x :: xs, y :: ys =>
    if x < y then true else if y < x then false else verLtB xs ys

/-- Model of the baseline filter (dfvsync.py lines 224-226): keep the releases
whose parsed version is strictly greater than the parsed tracked-file
version. -/
def baselineFilter (dockerfile_version : String) (releases : List Release) :
    List Release :=
  releases.filter fun r =>
    verLtB (parse_version dockerfile_version) (parse_version r.version)

/-- Model of the build-exclusion filter (dfvsync.py lines 228-230): drop the
releases whose version STRING occurs among the build version strings (set
membership on strings, `release.version not in build_versions`). -/
def buildExclusion (releases : List Release) (builds : List DockerBuild) :
    List Release :=
  releases.filter fun r => !((builds.map DockerBuild.version).contains r.version)

/-- Errors raised by the tracked-file reader/writer. `patternNotMatched f`
models `ValueError('Failed to match {regex} in file {f}.')` (raised by both
`files_version` and `update_files_version`); `inconsistentVersions` models
`ValueError('Found two different version from the files in the repo ...')`. -/
inductive FvError where
  | patternNotMatched (filename : String)
  | inconsistentVersions (v1 v2 : String)
deriving DecidableEq, Repr

/-- Loop of `files_version` (dfvsync.py lines 47-64), carrying the `version`
variable.  Each tracked file is modelled by its name together with the result
of `re.search(regex, contents)` restricted to capture group 1: `none` when the
regex does not match, `some s` when the first match captures `s`.  The source
guard is `if version and version != file_version`, so the inconsistency check
is skipped while `version` is still `None` or the empty string (Python
falsiness). -/
def files_version_loop (version : Option String) :
    List (String × Option String) → Except FvError (Option String)
  | [] => .ok version
  | (fname, cap) :: rest =>
    match cap with
    | none => .error (.patternNotMatched fname)
    | some fv =>
      match version with
      | some v =>
        if v ≠ "" ∧ v ≠ fv then .error (.inconsistentVersions v fv)
        else files_version_loop (some fv) rest
      | none => files_version_loop (some fv) rest

/-- Model of `files_version(files)`: fold the per-file check starting from
`version = None`; on success the last captured version (or `none` for an empty
mapping) is returned. -/
def files_version (files : List (String × Option String)) :
    Except FvError (Option String) :=
  files_version_loop none files

/-- Model of the per-file body of `update_files_version` (dfvsync.py lines
67-79).  `contents` is the file text as a character list and `span` is
`m.span(1)` of the first regex match — the half-open index interval of capture
group 1 — or `none` when `re.search` finds no match.  On a match the source
builds `contents[:s] + version + contents[t:]` and only then reopens the file
for writing; on no match it raises before any write, so the error case
produces no new contents. -/
def update_file (fname : String) (contents : List Char) (span : Option (Nat × Nat))
    (version : List Char) : Except FvError (List Char) :=
  match span with
  | none => .error (.patternNotMatched fname)
  | some (s, t) => .ok (contents.take s ++ version ++ contents.drop t)

/-- Shell commands issued by `create_version_commit` (dfvsync.py lines 82-95),
identified by their role and the data interpolated into them. -/
inductive GitCmd where
  | add (filename : String)
  | configEmail (email : String)
  | configName (username : String)
  | commit (service : String) (version : String)
  | tag (version : String)
  | push
deriving DecidableEq, Repr

/-- Events of one run of the release loop: one tracked file being rewritten
to a release's version, or one `os.system(...)` git command running with the
exit status the system returned.  The source never binds or inspects any
`os.system` return value, which the model reflects by recording the status in
the trace and never branching on it. -/
inductive Ev where
  | wrote (version : String) (filename : String)
  | ran (cmd : GitCmd) (status : Int)
deriving DecidableEq, Repr

/-- Environment of one run of `main`'s release loop: the configured tracked
files (in iteration order), service name and git identity, whether a given
tracked file's pattern matches its contents at the point the loop rewrites it
to a given version (`matchOk version filename` — `re.search` in
`update_files_version` succeeding on that file), and the exit status
`os.system` returns for a given command. -/
structure PubEnv where
  files : List String
  service : String
  email : Option String
  username : Option String
  matchOk : String → String → Bool
  statusOf : GitCmd → Int

/-- Model of `update_files_version(files, version)` (dfvsync.py lines 67-79)
as invoked for one release: the tracked files are processed ONE AT A TIME in
order; a file whose pattern matches is spliced and written back immediately
(event `wrote version filename`), and the first file whose pattern does not
match raises `ValueError` right there — the files already processed in this
same call stay rewritten (no rollback), the failing file and the ones after
it are untouched.  The error carries the failing filename and the trace,
partial writes included. -/
def updateFilesVersion (env : PubEnv) (v : String) :
    List String → List Ev → Except (String × List Ev) (List Ev)
  | [], trace => .ok trace
  | f :: fs, trace =>
    if env.matchOk v f then updateFilesVersion env v fs (trace ++ [Ev.wrote v f])
    else .error (f, trace)

/-- Model of `create_version_commit` for one release: `git add` each tracked
file, optionally set the git identity, then commit, tag and push.  Every
command's exit status is returned by `os.system` and immediately discarded by
the source, so the function always "succeeds" and the statuses appear only in
the trace. -/
def create_version_commit (env : PubEnv) (v : String) : List Ev :=
  (env.files.map fun f => Ev.ran (.add f) (env.statusOf (.add f)))
    ++ (match env.email with
        | some e => [Ev.ran (.configEmail e) (env.statusOf (.configEmail e))]
        | none => [])
    ++ (match env.username with
        | some u => [Ev.ran (.configName u) (env.statusOf (.configName u))]
        | none => [])
    ++ [Ev.ran (.commit env.service v) (env.statusOf (.commit env.service v)),
        Ev.ran (.tag v) (env.statusOf (.tag v)),
        Ev.ran (.push) (env.statusOf .push)]

/-- Model of `main`'s final loop (dfvsync.py lines 237-241): for each release
version in list order, run `update_files_version` (whose `ValueError` on a
non-matching pattern propagates and aborts the whole loop, after the earlier
files of that same release were already written back) and then
`create_version_commit`.  The error value carries the failing version, the
failing filename, and the trace of everything already done — including the
failing release's partial writes; nothing after the failing file is
executed. -/
def publishReleases (env : PubEnv) :
    List String → List Ev → Except (String × String × List Ev) (List Ev)
  | [], trace => .ok trace
  | v :: rest, trace =>
    match updateFilesVersion env v env.files trace with
    | .ok trace' => publishReleases env rest (trace' ++ create_version_commit env v)
    | .error (f, trace') => .error (v, f, trace')

/-! Lemmas about the version extractor. -/

theorem searchVersion_cons (c : Char) (cs : List Char) :
    searchVersion (c :: cs) =
      if c = 'v' || isPySpace c then
        match matchCapture cs with
        | some g => some g
        | none => searchVersion cs
      else searchVersion cs := rfl

/-- The search of `[\sv](\d+(?:\.\d+)*)` succeeds exactly when some character
of the label is whitespace or `v` and is immediately followed by a digit. -/
theorem searchVersion_isSome_iff (l : List Char) :
    (searchVersion l).isSome = true ↔
      ∃ pre c d post, l = pre ++ c :: d :: post
        ∧ (c = 'v' ∨ isPySpace c = true) ∧ d.isDigit = true := by
  induction l with
  | nil =>
    refine iff_of_false (by decide) ?_
    rintro ⟨pre, c, d, post, h, -⟩
    have := congrArg List.length h
    simp only [List.length_nil, List.length_append, List.length_cons] at this
    omega
  | cons x xs ih =>
    cases hx : (x = 'v' || isPySpace x) with
    | false =>
      have hx' : ¬(x = 'v' ∨ isPySpace x = true) := by
        rcases Bool.or_eq_false_iff.mp hx with ⟨h1, h2⟩
        rintro (h | h)
        · exact absurd (decide_eq_true h) (by simp [h1])
        · exact absurd h (by simp [h2])
      rw [searchVersion_cons, if_neg (by simp [hx]), ih]
      constructor
      · rintro ⟨pre, c, d, post, h, hc, hd⟩
        exact ⟨x :: pre, c, d, post, by simp [h], hc, hd⟩
      · rintro ⟨pre, c, d, post, h, hc, hd⟩
        cases pre with
        | nil =>
          simp only [List.nil_append, List.cons.injEq] at h
          exact absurd (h.1 ▸ hc) hx'
        | cons p pre' =>
          simp only [List.cons_append, List.cons.injEq] at h
          exact ⟨pre', c, d, post, h.2, hc, hd⟩
    | true =>
      have hx' : x = 'v' ∨ isPySpace x = true := by
        rcases Bool.or_eq_true_iff.mp hx with h | h
        · exact Or.inl (of_decide_eq_true h)
        · exact Or.inr h
      cases xs with
      | nil =>
        refine iff_of_false (by simp [searchVersion_cons, searchVersion, matchCapture, hx]) ?_
        rintro ⟨pre, c, d, post, h, -⟩
        have := congrArg List.length h
        simp only [List.length_cons, List.length_nil, List.length_append] at this
        omega
      | cons y ys =>
        cases hy : y.isDigit with
        | true =>
          refine iff_of_true ?_ ⟨[], x, y, ys, by simp, hx', hy⟩
          simp [searchVersion_cons, matchCapture, hx, hy]
        | false =>
          have hmc : matchCapture (y :: ys) = none := by simp [matchCapture, hy]
          rw [searchVersion_cons, if_pos hx, hmc]
          change (searchVersion (y :: ys)).isSome = true ↔ _
          rw [ih]
          constructor
          · rintro ⟨pre, c, d, post, h, hc, hd⟩
            exact ⟨x :: pre, c, d, post, by simp [h], hc, hd⟩
          · rintro ⟨pre, c, d, post, h, hc, hd⟩
            cases pre with
            | nil =>
              simp only [List.nil_append, List.cons.injEq] at h
              rw [← h.2.1, hy] at hd
              exact absurd hd (by decide)
            | cons p pre' =>
              simp only [List.cons_append, List.cons.injEq] at h
              exact ⟨pre', c, d, post, h.2, hc, hd⟩

/-! Numeric version order: `verLtB` agrees with the spec's "componentwise
numeric comparison after right-padding the shorter side with zeros",
formalized as the lexicographic strict order on the padded sequences. -/

/-- Right-pad `l` with zeros to length `n`. -/
def padZeros (l : List Nat) (n : Nat) : List Nat := l ++ List.replicate (n - l.length) 0

theorem replicate_lex_iff (b : List Nat) :
    List.Lex (· < ·) (List.replicate b.length 0) b ↔ ∃ y ∈ b, 0 < y := by
  induction b with
  | nil =>
    refine iff_of_false (fun h => by cases h) (by simp)
  | cons y ys ih =>
    simp only [List.length_cons, List.replicate_succ]
    constructor
    · intro h
      cases h with
      | rel hr => exact ⟨y, List.mem_cons_self y ys, hr⟩
      | cons ht =>
        obtain ⟨z, hz, hz0⟩ := ih.mp ht
        exact ⟨z, List.mem_cons_of_mem _ hz, hz0⟩
    · rintro ⟨z, hz, hz0⟩
      rcases List.mem_cons.mp hz with rfl | hz'
      · exact List.Lex.rel hz0
      · by_cases hy : 0 < y
        · exact List.Lex.rel hy
        · have hy0 : y = 0 := by omega
          subst hy0
          exact List.Lex.cons (ih.mpr ⟨z, hz', hz0⟩)

theorem not_lex_replicate (l : List Nat) :
    ¬ List.Lex (· < ·) l (List.replicate l.length 0) := by
  induction l with
  | nil => intro h; cases h
  | cons z zs ih =>
    intro h
    simp only [List.length_cons, List.replicate_succ] at h
    cases h with
    | rel hr => omega
    | cons ht => exact ih ht

/-- The comparison the code performs via `pkg_resources.parse_version` is
exactly the lexicographic order on zero-padded integer-component sequences. -/
theorem verLtB_iff_lex (a b : List Nat) :
    verLtB a b = true ↔
      List.Lex (· < ·) (padZeros a (max a.length b.length))
        (padZeros b (max a.length b.length)) := by
  induction a generalizing b with
  | nil =>
    simp only [padZeros, List.length_nil, Nat.zero_max, List.nil_append, Nat.sub_zero,
      Nat.sub_self, List.replicate_zero, List.append_nil, verLtB]
    rw [List.any_eq_true]
    constructor
    · rintro ⟨y, hy, h0⟩
      exact (replicate_lex_iff b).mpr ⟨y, hy, of_decide_eq_true h0⟩
    · intro h
      obtain ⟨y, hy, h0⟩ := (replicate_lex_iff b).mp h
      exact ⟨y, hy, decide_eq_true h0⟩
  | cons x xs ih =>
    cases b with
    | nil =>
      refine iff_of_false (by simp [verLtB]) ?_
      simp only [padZeros, List.length_cons, List.length_nil, Nat.max_zero, Nat.sub_self,
        List.replicate_zero, List.append_nil, Nat.sub_zero, List.nil_append,
        List.replicate_succ]
      intro h
      cases h with
      | rel hr => omega
      | cons ht => exact not_lex_replicate xs ht
    | cons y ys =>
      have hmax : max (x :: xs).length (y :: ys).length = max xs.length ys.length + 1 := by
        simp only [List.length_cons]
        omega
      have hpadA : padZeros (x :: xs) (max xs.length ys.length + 1)
          = x :: padZeros xs (max xs.length ys.length) := by
        simp only [padZeros, List.length_cons, List.cons_append, Nat.succ_sub_succ]
      have hpadB : padZeros (y :: ys) (max xs.length ys.length + 1)
          = y :: padZeros ys (max xs.length ys.length) := by
        simp only [padZeros, List.length_cons, List.cons_append, Nat.succ_sub_succ]
      rw [hmax, hpadA, hpadB]
      by_cases hxy : x < y
      · refine iff_of_true ?_ (List.Lex.rel hxy)
        simp [verLtB, hxy]
      · by_cases hyx : y < x
        · refine iff_of_false ?_ ?_
          · simp [verLtB, hxy, hyx]
          · intro h
            cases h with
            | rel hr => omega
            | cons ht => omega
        · have hxyeq : x = y := by omega
          subst hxyeq
          have hv : verLtB (x :: xs) (x :: ys) = verLtB xs ys := by
            simp [verLtB, hxy]
          rw [hv, ih ys]
          constructor
          · exact fun h => List.Lex.cons h
          · intro h
            cases h with
            | rel hr => omega
            | cons ht => exact ht

/-! Claim theorems C1 - C3. -/

/-- C1: the claim says every sequence produced by the reconciliation (and by
`get_releases`) is ordered ascending by componentwise NUMERIC comparison of
version components, so that "1.9" sorts before "1.10".  The code sorts by
`key=lambda r: r.version`, i.e. by the raw version STRING, which is
lexicographic: on releases tagged `v1.9` and `v1.10` the output order is
["1.10", "1.9"], although "1.9" is numerically smaller — the code contradicts
the spec's stated invariant (and its own use of `parse_version` for the
numeric baseline comparison three lines later). -/
theorem C1_release_order_is_lexicographic_not_numeric :
    (get_releases
        [⟨"v1.9", "r19", "u19", "a19"⟩, ⟨"v1.10", "r110", "u110", "a110"⟩] 5).map
        Release.version = ["1.10", "1.9"]
    ∧ verLtB (parse_version "1.9") (parse_version "1.10") = true := by decide

/-- C2: the claim says `get_builds` returns one record per surviving entry and
never raises.  In the source the surviving-entry branch executes
`builds[build.version] = DockerBuild(version=version,
tag=release_dict['dockertag_name'], ...)` where neither `build` nor
`release_dict` is defined in the function, so the first entry that passes all
three filters raises `NameError`; only inputs in which every entry is
filtered out return normally (with the empty list). -/
theorem C2_get_builds_raises_on_any_surviving_entry :
    get_builds [⟨"v1.0", 10⟩] = .error (.nameError "release_dict")
    ∧ get_builds [⟨"latest", 10⟩, ⟨"broken", 0⟩, ⟨"v2.0", -1⟩] = .ok [] := by decide

/-- C3 counterexample: the claim says a bare version such as "2" or "1.4.2" at
the start of the label is matched.  The regex `[\sv](\d+(?:\.\d+)*)` requires
a whitespace-or-`v` CHARACTER before the digits (there is no word-boundary
alternative and no anchor match at position 0), so both labels extract to
`None`. -/
theorem C3_bare_version_at_start_not_matched :
    get_version "2" = none ∧ get_version "1.4.2" = none := by decide

/-- C3 (amended): `get_version` returns the capture of the first match of
`[\sv](\d+(?:\.\d+)*)`: the spec's examples extract("v1.4.2") = "1.4.2",
extract("release") = NotFound and extract("Build 3") = "3" all hold, but a
match exists exactly when some whitespace-or-`v` character is immediately
followed by a digit — the `v` may occur anywhere ("dev2.0" gives "2.0") and a
bare version at the start of the label ("2", "1.4.2") is NOT matched. -/
theorem C3_extractor_requires_space_or_v_before_digits (tag : String) :
    (get_version "v1.4.2" = some "1.4.2"
      ∧ get_version "release" = none
      ∧ get_version "Build 3" = some "3"
      ∧ get_version "Release 2.0" = some "2.0"
      ∧ get_version "dev2.0" = some "2.0"
      ∧ get_version "2" = none
      ∧ get_version "1.4.2" = none)
    ∧ ((get_version tag).isSome = true ↔
        ∃ pre c d post, tag.data = pre ++ c :: d :: post
          ∧ (c = 'v' ∨ isPySpace c = true) ∧ d.isDigit = true) := by
  refine ⟨by decide, ?_⟩
  have h : (get_version tag).isSome = (searchVersion tag.data).isSome := by
    rw [get_version]; cases searchVersion tag.data <;> rfl
  rw [h]
  exact searchVersion_isSome_iff tag.data

/-- C3 witness: the general characterization applied to the concrete label
"Build 3". -/
theorem C3_extractor_witness :
    ∃ pre c d post, ("Build 3").data = pre ++ c :: d :: post
      ∧ (c = 'v' ∨ isPySpace c = true) ∧ d.isDigit = true :=
  ((C3_extractor_requires_space_or_v_before_digits "Build 3").2).mp (by decide)

/-! Claim theorems C4, C6, C7: the two release filters of `main`. -/

/-- C4 counterexample: the claim says version equality throughout the
reconciliation is padded numeric equality, so a release "2.0" is treated as
already built when the builds contain "2.0.0".  The build-exclusion step
compares raw version STRINGS (`release.version not in build_versions`):
"2.0" and "2.0.0" are numerically equal (equal after zero-padding, and
`verLtB` holds in neither direction) yet the release survives the
exclusion. -/
theorem C4_numerically_equal_version_not_excluded :
    buildExclusion [⟨"2.0","n","u","t","a"⟩] [⟨"2.0.0","v2.0.0",10⟩]
      = [⟨"2.0","n","u","t","a"⟩]
    ∧ padZeros (parse_version "2.0") 3 = parse_version "2.0.0"
    ∧ parse_version "1.01" = parse_version "1.1"
    ∧ verLtB (parse_version "2.0") (parse_version "2.0.0") = false
    ∧ verLtB (parse_version "2.0.0") (parse_version "2.0") = false := by decide

/-- C4 (amended): version equality in the build-exclusion step is exact
equality of the extracted version strings, NOT padded numeric equality: a
release is dropped iff its version string occurs verbatim among the build
version strings, and a numerically equal but textually different version
(such as "1.01" against build "1.1") is kept. -/
theorem C4_build_exclusion_uses_string_equality
    (releases : List Release) (builds : List DockerBuild) :
    (∀ r, r ∈ buildExclusion releases builds ↔
        r ∈ releases ∧ r.version ∉ builds.map DockerBuild.version)
    ∧ (buildExclusion [⟨"1.01","n","u","t","a"⟩] [⟨"1.1","v1.1",10⟩]).map Release.version
        = ["1.01"] := by
  refine ⟨?_, by decide⟩
  intro r
  rw [buildExclusion, List.mem_filter]
  simp

/-- C4 witness: the amended characterization applied to a concrete release
list, showing a verbatim version match being dropped. -/
theorem C4_string_equality_witness :
    ¬ ((⟨"2.0","n","u","t","a"⟩ : Release) ∈
        buildExclusion [⟨"2.0","n","u","t","a"⟩] [⟨"2.0","v2.0",10⟩]) := fun h =>
  absurd ((C4_build_exclusion_uses_string_equality _ _).1 _ |>.mp h).2 (by decide)

/-- C6: the baseline filter keeps exactly the releases whose version is
strictly greater than the tracked-file baseline under componentwise numeric
comparison — `verLtB` coincides with the lexicographic order on zero-padded
component sequences, membership in the filtered list is characterized by that
order, baseline "2.0.0" against releases 1.9.0 / 2.0.0 / 2.0.1 keeps exactly
2.0.1, and release "1.9.0" is dropped for baseline "1.10.0" although the
STRING "1.9.0" is lexicographically greater than "1.10.0" (so the comparison
is genuinely numeric, not textual). -/
theorem C6_baseline_filter_is_numeric_strictly_greater :
    (∀ a b : List Nat, verLtB a b = true ↔
        List.Lex (· < ·) (padZeros a (max a.length b.length))
          (padZeros b (max a.length b.length)))
    ∧ (∀ (baseline : String) (rels : List Release) (r : Release),
        r ∈ baselineFilter baseline rels ↔
          r ∈ rels ∧ List.Lex (· < ·)
            (padZeros (parse_version baseline)
              (max (parse_version baseline).length (parse_version r.version).length))
            (padZeros (parse_version r.version)
              (max (parse_version baseline).length (parse_version r.version).length)))
    ∧ (baselineFilter "2.0.0"
        [⟨"1.9.0","n1","u1","t1","a1"⟩, ⟨"2.0.0","n2","u2","t2","a2"⟩,
         ⟨"2.0.1","n3","u3","t3","a3"⟩]).map Release.version = ["2.0.1"]
    ∧ baselineFilter "1.10.0" [⟨"1.9.0","n1","u1","t1","a1"⟩] = []
    ∧ strLtB "1.10.0".data "1.9.0".data = true := by
  refine ⟨verLtB_iff_lex, ?_, by decide, by decide, by decide⟩
  intro baseline rels r
  rw [baselineFilter, List.mem_filter, ← verLtB_iff_lex]

/-- C6 witness: the membership characterization instantiated at baseline
"2.0.0", putting release 2.0.1 in the filter's output. -/
theorem C6_baseline_filter_witness :
    (⟨"2.0.1","n3","u3","t3","a3"⟩ : Release) ∈ baselineFilter "2.0.0"
      [⟨"1.9.0","n1","u1","t1","a1"⟩, ⟨"2.0.0","n2","u2","t2","a2"⟩,
       ⟨"2.0.1","n3","u3","t3","a3"⟩] :=
  (C6_baseline_filter_is_numeric_strictly_greater.2.1 "2.0.0" _ _).mpr
    ⟨by decide,
      (C6_baseline_filter_is_numeric_strictly_greater.1
        (parse_version "2.0.0") (parse_version "2.0.1")).mp (by decide)⟩

/-- C7: build exclusion is complete (a release is kept iff no build has its
exact version string) and idempotent (when every release's version occurs
among the builds, the result is the empty list — returned normally, no
error), and with releases 2.0.1 / 2.1.0 and a build for 2.0.1 exactly the
2.1.0 release survives. -/
theorem C7_build_exclusion_complete_and_idempotent
    (releases : List Release) (builds : List DockerBuild) :
    (∀ r, r ∈ buildExclusion releases builds ↔
        r ∈ releases ∧ ∀ b ∈ builds, b.version ≠ r.version)
    ∧ ((∀ r ∈ releases, ∃ b ∈ builds, b.version = r.version) →
        buildExclusion releases builds = [])
    ∧ buildExclusion
        [⟨"2.0.1","n1","u1","t1","a1"⟩, ⟨"2.1.0","n2","u2","t2","a2"⟩]
        [⟨"2.0.1","v2.0.1",10⟩]
      = [⟨"2.1.0","n2","u2","t2","a2"⟩] := by
  have hmem : ∀ r, r ∈ buildExclusion releases builds ↔
      r ∈ releases ∧ ∀ b ∈ builds, b.version ≠ r.version := by
    intro r
    rw [buildExclusion, List.mem_filter]
    simp
  refine ⟨hmem, ?_, by decide⟩
  intro hall
  rw [List.eq_nil_iff_forall_not_mem]
  intro r hr
  obtain ⟨hrel, hnone⟩ := (hmem r).mp hr
  obtain ⟨b, hb, hbv⟩ := hall r hrel
  exact hnone b hb hbv

/-- C7 witness: idempotence applied to a concrete already-built release
list. -/
theorem C7_idempotence_witness :
    buildExclusion [⟨"2.0.1","n1","u1","t1","a1"⟩] [⟨"2.0.1","v2.0.1",10⟩] = [] :=
  (C7_build_exclusion_complete_and_idempotent
    [⟨"2.0.1","n1","u1","t1","a1"⟩] [⟨"2.0.1","v2.0.1",10⟩]).2.1 (by decide)

/-! Claim C8: the tracked-file baseline reader. -/

theorem files_version_loop_error_of_none :
    ∀ (files : List (String × Option String)) (ver : Option String),
      (∃ f ∈ files, f.2 = none) →
      ∃ e, files_version_loop ver files = .error e := by
  intro files
  induction files with
  | nil =>
    rintro ver ⟨f, hf, -⟩
    cases hf
  | cons p rest ih =>
    rintro ver ⟨f, hf, hnone⟩
    obtain ⟨fname, cap⟩ := p
    cases cap with
    | none => exact ⟨.patternNotMatched fname, rfl⟩
    | some fv =>
      rcases List.mem_cons.mp hf with rfl | hf'
      · cases hnone
      · cases ver with
        | none =>
          simpa only [files_version_loop] using ih (some fv) ⟨f, hf', hnone⟩
        | some v =>
          by_cases hc : v ≠ "" ∧ v ≠ fv
          · exact ⟨.inconsistentVersions v fv, by simp [files_version_loop, hc]⟩
          · simpa only [files_version_loop, if_neg hc] using ih (some fv) ⟨f, hf', hnone⟩

theorem files_version_loop_ok_of_all_eq (v : String) :
    ∀ files : List (String × Option String),
      (∀ f ∈ files, f.2 = some v) →
      files_version_loop (some v) files = .ok (some v) := by
  intro files
  induction files with
  | nil => intro; rfl
  | cons p rest ih =>
    intro h
    obtain ⟨fname, cap⟩ := p
    have hcap : cap = some v := h _ (List.mem_cons_self _ _)
    subst hcap
    have hc : ¬(v ≠ "" ∧ v ≠ v) := by simp
    simp only [files_version_loop, if_neg hc]
    exact ih fun f hf => h f (List.mem_cons_of_mem _ hf)

theorem files_version_loop_error_of_disagree (v : String) (hv : v ≠ "") :
    ∀ files : List (String × Option String),
      (∀ f ∈ files, f.2 ≠ none ∧ f.2 ≠ some "") →
      (∃ g ∈ files, g.2 ≠ some v) →
      ∃ v1 v2, files_version_loop (some v) files = .error (.inconsistentVersions v1 v2) := by
  intro files
  induction files with
  | nil =>
    rintro - ⟨g, hg, -⟩
    cases hg
  | cons p rest ih =>
    rintro hall ⟨g, hg, hgv⟩
    obtain ⟨fname, cap⟩ := p
    obtain ⟨hne, -⟩ := hall _ (List.mem_cons_self _ _)
    cases cap with
    | none => exact absurd rfl hne
    | some s =>
      by_cases hsv : s = v
      · subst hsv
        rcases List.mem_cons.mp hg with rfl | hg'
        · exact absurd rfl hgv
        · have hc : ¬(s ≠ "" ∧ s ≠ s) := by simp
          obtain ⟨v1, v2, hres⟩ :=
            ih (fun f hf => hall f (List.mem_cons_of_mem _ hf)) ⟨g, hg', hgv⟩
          exact ⟨v1, v2, by simp only [files_version_loop, if_neg hc]; exact hres⟩
      · refine ⟨v, s, ?_⟩
        have hc : v ≠ "" ∧ v ≠ s := ⟨hv, fun h => hsv h.symm⟩
        simp [files_version_loop, hc]

/-- C8 counterexample: the claim says `files_version` raises whenever two
tracked files report different versions.  The source guard is
`if version and version != file_version`, so when the FIRST file's capture is
the empty string (falsy in Python) the disagreement with the second file's
"1.0" is silently accepted and the call returns "1.0". -/
theorem C8_empty_capture_hides_disagreement :
    files_version [("a", some ""), ("b", some "1.0")] = .ok (some "1.0") := by
  decide

/-- C8 (amended): reading the baseline fails exactly when the tracked files
are inconsistent or unmatched, except that the inconsistency check skips a
previously captured EMPTY version (Python falsiness): an unmatched file
always produces an error; when every file matches with a non-empty capture,
any disagreement raises the inconsistent-versions error (in particular the
spec's "1.0.0" vs "1.0.1" case); when all files agree on one version it is
returned; and the function performs no mutation (it is a pure read, modelled
by a total function of the captures). -/
theorem C8_files_version_error_conditions (files : List (String × Option String)) :
    ((∃ f ∈ files, f.2 = none) → ∃ e, files_version files = .error e)
    ∧ ((∀ f ∈ files, f.2 ≠ none ∧ f.2 ≠ some "") →
        (∃ f ∈ files, ∃ g ∈ files, f.2 ≠ g.2) →
        ∃ v1 v2, files_version files = .error (.inconsistentVersions v1 v2))
    ∧ (∀ v : String, files ≠ [] → (∀ f ∈ files, f.2 = some v) →
        files_version files = .ok (some v))
    ∧ files_version [] = .ok none := by
  refine ⟨files_version_loop_error_of_none files none, ?_, ?_, rfl⟩
  · rintro hall ⟨f, hf, g, hg, hfg⟩
    cases files with
    | nil => cases hf
    | cons p rest =>
      obtain ⟨fname, cap⟩ := p
      obtain ⟨hne, hnemp⟩ := hall _ (List.mem_cons_self _ _)
      cases cap with
      | none => exact absurd rfl hne
      | some s =>
        have hs : s ≠ "" := fun h => hnemp (congrArg some h)
        have hex : ∃ x ∈ rest, x.2 ≠ some s := by
          by_contra hno
          push_neg at hno
          have hallsame : ∀ x ∈ (fname, some s) :: rest, x.2 = some s := by
            intro x hx
            rcases List.mem_cons.mp hx with rfl | hx'
            · rfl
            · exact hno x hx'
          exact hfg ((hallsame f hf).trans (hallsame g hg).symm)
        obtain ⟨v1, v2, hres⟩ := files_version_loop_error_of_disagree s hs rest
          (fun x hx => hall x (List.mem_cons_of_mem _ hx)) hex
        refine ⟨v1, v2, ?_⟩
        show files_version_loop none _ = _
        simp only [files_version_loop]
        exact hres
  · intro v hnil hall
    cases files with
    | nil => exact absurd rfl hnil
    | cons p rest =>
      obtain ⟨fname, cap⟩ := p
      have hcap : cap = some v := hall _ (List.mem_cons_self _ _)
      subst hcap
      show files_version_loop none _ = _
      simp only [files_version_loop]
      exact files_version_loop_ok_of_all_eq v rest
        fun f hf => hall f (List.mem_cons_of_mem _ hf)

/-- C8 witness: the spec's concrete inconsistency case — two files capturing
"1.0.0" and "1.0.1" — raises the inconsistent-versions error. -/
theorem C8_inconsistency_witness :
    ∃ v1 v2, files_version [("a", some "1.0.0"), ("b", some "1.0.1")]
      = .error (.inconsistentVersions v1 v2) :=
  (C8_files_version_error_conditions [("a", some "1.0.0"), ("b", some "1.0.1")]).2.1
    (by decide) (by decide)

/-! Claim C9: the tracked-file writer. -/

/-- C9: for a file whose pattern matches with capture-group span `[s, t)`,
`update_files_version` writes back exactly
`contents[:s] + version + contents[t:]`: the prefix before `s` and the suffix
from `t` are byte-identical to the original, the span itself now holds the
new version text, and the length changes by exactly the difference; when the
pattern does not match, the same `patternNotMatched` error as the read side
(`files_version`) is raised and no contents are produced for that file. -/
theorem C9_update_file_replaces_exactly_the_span (fname : String)
    (contents version : List Char) (s t : Nat)
    (hs : s ≤ t) (ht : t ≤ contents.length) :
    (∃ newC, update_file fname contents (some (s, t)) version = .ok newC
      ∧ newC.take s = contents.take s
      ∧ newC.drop (s + version.length) = contents.drop t
      ∧ (newC.drop s).take version.length = version
      ∧ newC.length + (t - s) = contents.length + version.length)
    ∧ update_file fname contents none version = .error (.patternNotMatched fname)
    ∧ files_version [(fname, none)] = .error (.patternNotMatched fname) := by
  refine ⟨⟨contents.take s ++ version ++ contents.drop t, rfl, ?_, ?_, ?_, ?_⟩, rfl, rfl⟩
  · have hlen : (contents.take s).length = s := by
      rw [List.length_take]
      omega
    rw [List.append_assoc, List.take_left' hlen]
  · have hlen : ((contents.take s ++ version)).length = s + version.length := by
      rw [List.length_append, List.length_take]
      omega
    rw [List.drop_left' hlen]
  · have hlen : (contents.take s).length = s := by
      rw [List.length_take]; omega
    rw [List.append_assoc, List.drop_left' hlen, List.take_left' rfl]
  · simp only [List.length_append, List.length_take, List.length_drop]
    omega

/-- C9 witness: the splice behaviour at the concrete file text "xy1.0z" with
capture span [2, 5) and new version "2.11". -/
theorem C9_update_file_witness :
    ∃ newC, update_file "f" "xy1.0z".data (some (2, 5)) "2.11".data = .ok newC
      ∧ newC.take 2 = "xy1.0z".data.take 2
      ∧ newC.drop (2 + "2.11".data.length) = "xy1.0z".data.drop 5
      ∧ (newC.drop 2).take "2.11".data.length = "2.11".data
      ∧ newC.length + (5 - 2) = "xy1.0z".data.length + "2.11".data.length :=
  (C9_update_file_replaces_exactly_the_span "f" "xy1.0z".data "2.11".data 2 5
    (by decide) (by decide)).1

/-! Claim C5: the sequential release loop of `main`. -/

/-- Trace of a fully successful run over the release versions `vs`, in list
order: for each version, the rewrite of every tracked file (in file order)
followed by the git commands of `create_version_commit`. -/
def traceFor (env : PubEnv) (vs : List String) : List Ev :=
  vs.flatMap fun v => env.files.map (Ev.wrote v) ++ create_version_commit env v

theorem updateFilesVersion_ok (env : PubEnv) (v : String) :
    ∀ (fs : List String) (trace : List Ev),
      (∀ f ∈ fs, env.matchOk v f = true) →
      updateFilesVersion env v fs trace = .ok (trace ++ fs.map (Ev.wrote v)) := by
  intro fs
  induction fs with
  | nil => intro trace h; simp [updateFilesVersion]
  | cons f fs ih =>
    intro trace h
    rw [updateFilesVersion, if_pos (h f (List.mem_cons_self _ _)),
      ih _ (fun g hg => h g (List.mem_cons_of_mem _ hg))]
    simp

theorem updateFilesVersion_partial_error (env : PubEnv) (v : String) (fbad : String)
    (hbad : env.matchOk v fbad = false) (fpost : List String) :
    ∀ (fpre : List String) (trace : List Ev),
      (∀ f ∈ fpre, env.matchOk v f = true) →
      updateFilesVersion env v (fpre ++ fbad :: fpost) trace
        = .error (fbad, trace ++ fpre.map (Ev.wrote v)) := by
  intro fpre
  induction fpre with
  | nil => intro trace h; simp [updateFilesVersion, hbad]
  | cons f fs ih =>
    intro trace h
    rw [List.cons_append, updateFilesVersion, if_pos (h f (List.mem_cons_self _ _)),
      ih _ (fun g hg => h g (List.mem_cons_of_mem _ hg))]
    simp

theorem publishReleases_ok (env : PubEnv) :
    ∀ (vs : List String) (trace : List Ev),
      (∀ v ∈ vs, ∀ f ∈ env.files, env.matchOk v f = true) →
      publishReleases env vs trace = .ok (trace ++ traceFor env vs) := by
  intro vs
  induction vs with
  | nil => intro trace h; simp [publishReleases, traceFor]
  | cons v rest ih =>
    intro trace h
    rw [publishReleases,
      updateFilesVersion_ok env v env.files trace (h v (List.mem_cons_self _ _))]
    show publishReleases env rest
        ((trace ++ env.files.map (Ev.wrote v)) ++ create_version_commit env v) = _
    rw [ih _ (fun w hw => h w (List.mem_cons_of_mem _ hw))]
    simp [traceFor]

theorem publishReleases_error (env : PubEnv) (bad : String) (fpre fpost : List String)
    (fbad : String) (hfiles : env.files = fpre ++ fbad :: fpost)
    (hbadpre : ∀ f ∈ fpre, env.matchOk bad f = true)
    (hbad : env.matchOk bad fbad = false) (post : List String) :
    ∀ (pre : List String) (trace : List Ev),
      (∀ v ∈ pre, ∀ f ∈ env.files, env.matchOk v f = true) →
      publishReleases env (pre ++ bad :: post) trace
        = .error (bad, fbad, trace ++ traceFor env pre ++ fpre.map (Ev.wrote bad)) := by
  intro pre
  induction pre with
  | nil =>
    intro trace h
    rw [List.nil_append, publishReleases, hfiles,
      updateFilesVersion_partial_error env bad fbad hbad fpost fpre trace hbadpre]
    simp [traceFor]
  | cons v rest ih =>
    intro trace h
    rw [List.cons_append, publishReleases,
      updateFilesVersion_ok env v env.files trace (h v (List.mem_cons_self _ _))]
    show publishReleases env (rest ++ bad :: post)
        ((trace ++ env.files.map (Ev.wrote v)) ++ create_version_commit env v) = _
    rw [ih _ (fun w hw => h w (List.mem_cons_of_mem _ hw))]
    simp [traceFor]

/-- C5 counterexample: the claim says a failure of one release's publish
(commit/tag/push) step aborts the run, so no later release gets its files
rewritten.  Every git command is run through `os.system`, whose return value
the source discards, so a failing commit cannot abort anything: here the
commit for release "1.0" exits with status 1, yet release "2.0" is still
written, committed, tagged and pushed and the whole run returns normally. -/
theorem C5_failed_publish_does_not_abort :
    publishReleases
      ⟨["Dockerfile"], "svc", none, none, fun _ _ => true,
        fun c => match c with | .commit _ "1.0" => 1 | _ => 0⟩
      ["1.0", "2.0"] []
      = .ok [.wrote "1.0" "Dockerfile", .ran (.add "Dockerfile") 0,
             .ran (.commit "svc" "1.0") 1, .ran (.tag "1.0") 0, .ran .push 0,
             .wrote "2.0" "Dockerfile", .ran (.add "Dockerfile") 0,
             .ran (.commit "svc" "2.0") 0, .ran (.tag "2.0") 0, .ran .push 0] := by rfl

/-- C5 (amended): releases are processed strictly sequentially in list order
(the order produced by `get_releases`); a `ValueError` while REWRITING a
release's tracked files aborts the run — earlier releases keep their full
write/commit/tag/push trace, the failing release keeps the writes of the
tracked files processed BEFORE the failing file (`update_files_version`
writes one file at a time and raises mid-loop with no rollback), the failing
file and the ones after it are not written, no commit is created for the
failing release, and all later releases contribute nothing — while the git
commands' exit statuses are discarded by `os.system`, so a failing
commit/tag/push never aborts the run (the error case of the model is
reachable only through a failing pattern match). -/
theorem C5_sequential_abort_on_write_failure (env : PubEnv) (pre post : List String)
    (bad : String) (fpre fpost : List String) (fbad : String)
    (hfiles : env.files = fpre ++ fbad :: fpost)
    (hpre : ∀ v ∈ pre, ∀ f ∈ env.files, env.matchOk v f = true)
    (hbadpre : ∀ f ∈ fpre, env.matchOk bad f = true)
    (hbad : env.matchOk bad fbad = false) :
    publishReleases env pre [] = .ok (traceFor env pre)
    ∧ publishReleases env (pre ++ bad :: post) []
        = .error (bad, fbad, traceFor env pre ++ fpre.map (Ev.wrote bad)) := by
  constructor
  · simpa using publishReleases_ok env pre [] hpre
  · simpa using publishReleases_error env bad fpre fpost fbad hfiles hbadpre hbad post pre [] hpre

/-- Environment used by the C5 witness: two tracked files; the SECOND file's
pattern fails to match exactly when rewriting to version "9.9". -/
def envW : PubEnv :=
  ⟨["Dockerfile", "README"], "svc", none, none,
    fun v f => !(v == "9.9" && f == "README"), fun _ => 0⟩

/-- C5 witness: with releases ["1.0", "9.9", "2.0"] and the pattern of the
second tracked file failing for "9.9", the run aborts there: release "1.0"
keeps its full trace, release "9.9" keeps the write of its FIRST tracked file
(the partial write preceding the `ValueError`), and release "2.0" contributes
nothing. -/
theorem C5_abort_witness :
    publishReleases envW (["1.0"] ++ "9.9" :: ["2.0"]) []
      = .error ("9.9", "README", traceFor envW ["1.0"] ++ ["Dockerfile"].map (Ev.wrote "9.9")) :=
  (C5_sequential_abort_on_write_failure envW ["1.0"] ["2.0"] "9.9"
    ["Dockerfile"] [] "README" rfl (by decide) (by decide) (by decide)).2


/-! Claim C10: the version-keyed dict in `get_releases`. -/
/-- Lookup in the association-list model of the Python dict. -/
def lookupD : List (String × Release) → String → Option Release
  | [], _ => none
  | p :: d, k => if p.1 = k then some p.2 else lookupD d k

/-- The Release record that entry `e` contributes under dict key `v`, if
any. -/
def entryFor (v : String) (e : GithubReleaseEntry) : Option Release :=
  match get_version e.tag_name with
  | some w => if w = v then some (releaseOf e v) else none
  | none => none

theorem lookupD_map_ne (k' : String) (v : Release) (k : String) (hk : k ≠ k') :
    ∀ d : List (String × Release),
      lookupD (d.map fun p => if p.1 = k' then (k', v) else p) k = lookupD d k := by
  intro d
  induction d with
  | nil => rfl
  | cons p d ih =>
    by_cases hp : p.1 = k'
    · simp only [List.map_cons, if_pos hp, lookupD]
      rw [if_neg (fun h => hk h.symm), if_neg (by rw [hp]; exact fun h => hk h.symm), ih]
    · simp only [List.map_cons, if_neg hp, lookupD, ih]

theorem lookupD_map_self (k' : String) (v : Release) :
    ∀ d : List (String × Release), (∃ r, (k', r) ∈ d) →
      lookupD (d.map fun p => if p.1 = k' then (k', v) else p) k' = some v := by
  intro d
  induction d with
  | nil => rintro ⟨r, hr⟩; cases hr
  | cons p d ih =>
    rintro ⟨r, hr⟩
    by_cases hp : p.1 = k'
    · simp [List.map_cons, if_pos hp, lookupD]
    · simp only [List.map_cons, if_neg hp, lookupD, if_neg hp]
      rcases List.mem_cons.mp hr with rfl | hr'
      · exact absurd rfl hp
      · exact ih ⟨r, hr'⟩

theorem lookupD_append_ne (k' : String) (v : Release) (k : String) (hk : k ≠ k') :
    ∀ d : List (String × Release),
      lookupD (d ++ [(k', v)]) k = lookupD d k := by
  intro d
  induction d with
  | nil =>
    simp only [List.nil_append, lookupD]
    rw [if_neg (fun h => hk h.symm)]
  | cons p d ih =>
    simp only [List.cons_append, lookupD, List.append_eq, ih]

theorem lookupD_append_self (k' : String) (v : Release) :
    ∀ d : List (String × Release), (∀ r : Release, (k', r) ∉ d) →
      lookupD (d ++ [(k', v)]) k' = some v := by
  intro d
  induction d with
  | nil => simp [lookupD]
  | cons p d ih =>
    intro hno
    have hp : p.1 ≠ k' := by
      intro h
      exact hno p.2 (by rw [← h]; exact List.mem_cons_self _ _)
    simp only [List.cons_append, lookupD, List.append_eq, if_neg hp]
    exact ih fun r hr => hno r (List.mem_cons_of_mem _ hr)

theorem lookupD_dictInsert (d : List (String × Release)) (k k' : String) (v : Release) :
    lookupD (dictInsert k' v d) k = if k = k' then some v else lookupD d k := by
  by_cases hk : k = k'
  · subst hk
    rw [if_pos rfl, dictInsert]
    cases hc : (d.map Prod.fst).contains k with
    | true =>
      have hmem : ∃ r, (k, r) ∈ d := by simpa using hc
      simp only [if_pos rfl]
      exact lookupD_map_self k v d hmem
    | false =>
      have hmem : ∀ r : Release, (k, r) ∉ d := by simpa using hc
      simp only [Bool.false_eq_true, if_false]
      exact lookupD_append_self k v d hmem
  · rw [if_neg hk, dictInsert]
    cases hc : (d.map Prod.fst).contains k' with
    | true =>
      simp only [if_pos rfl]
      exact lookupD_map_ne k' v k hk d
    | false =>
      simp only [Bool.false_eq_true, if_false]
      exact lookupD_append_ne k' v k hk d



theorem lookupD_foldl (v : String) :
    ∀ (es : List GithubReleaseEntry) (d : List (String × Release)),
      lookupD (es.foldl releasesStep d) v =
        match (es.filterMap (entryFor v)).getLast? with
        | some r => some r
        | none => lookupD d v := by
  intro es
  induction es with
  | nil => intro d; rfl
  | cons e es ih =>
    intro d
    rw [List.foldl_cons, ih]
    cases he : entryFor v e with
    | none =>
      have h1 : lookupD (releasesStep d e) v = lookupD d v := by
        cases hg : get_version e.tag_name with
        | none => simp only [releasesStep, hg]
        | some w =>
          have hw : w ≠ v := by
            intro h
            simp only [entryFor, hg, if_pos h] at he
            exact Option.noConfusion he
          simp only [releasesStep, hg]
          rw [lookupD_dictInsert, if_neg (fun h => hw h.symm)]
      have hfm : List.filterMap (entryFor v) (e :: es) = List.filterMap (entryFor v) es := by
        simp [List.filterMap_cons, he]
      rw [hfm, h1]
    | some r =>
      have h1 : lookupD (releasesStep d e) v = some r := by
        cases hg : get_version e.tag_name with
        | none =>
          simp only [entryFor, hg] at he
          exact Option.noConfusion he
        | some w =>
          by_cases hw : w = v
          · subst hw
            simp only [entryFor, hg, if_pos rfl] at he
            simp only [releasesStep, hg]
            rw [lookupD_dictInsert, if_pos rfl]
            exact he
          · simp only [entryFor, hg, if_neg hw] at he
            exact Option.noConfusion he
      have hfm : List.filterMap (entryFor v) (e :: es) = r :: List.filterMap (entryFor v) es := by
        simp [List.filterMap_cons, he]
      rw [hfm]
      cases hlast : (es.filterMap (entryFor v)) with
      | nil => simp [h1]
      | cons a as =>
        rw [List.getLast?_cons_cons]
        cases h2 : (a :: as).getLast? with
        | none => simp at h2
        | some x => rfl


theorem lookupD_mem : ∀ (d : List (String × Release)) (k : String) (r : Release),
    lookupD d k = some r → (k, r) ∈ d := by
  intro d
  induction d with
  | nil => intro k r h; cases h
  | cons p d ih =>
    intro k r h
    rw [lookupD] at h
    by_cases hp : p.1 = k
    · rw [if_pos hp] at h
      have : p = (k, r) := Prod.ext hp (Option.some.inj h)
      rw [← this]
      exact List.mem_cons_self _ _
    · rw [if_neg hp] at h
      exact List.mem_cons_of_mem _ (ih k r h)

theorem keys_dictInsert (k' : String) (v : Release) (d : List (String × Release))
    (h : (d.map Prod.fst).Nodup) : ((dictInsert k' v d).map Prod.fst).Nodup := by
  rw [dictInsert]
  cases hc : (d.map Prod.fst).contains k' with
  | true =>
    rw [if_pos rfl]
    have heq : ((d.map fun p => if p.1 = k' then (k', v) else p).map Prod.fst)
        = d.map Prod.fst := by
      rw [List.map_map]
      refine List.map_congr_left fun p hp => ?_
      by_cases hp2 : p.1 = k'
      · simp only [Function.comp_apply, if_pos hp2]
        exact hp2.symm
      · simp only [Function.comp_apply, if_neg hp2]
    rw [heq]
    exact h
  | false =>
    simp only [Bool.false_eq_true, if_false, List.map_append, List.map_cons, List.map_nil]
    have hnotmem : k' ∉ d.map Prod.fst := by
      intro hm
      rw [List.contains_eq_any_beq] at hc
      have : (d.map Prod.fst).any (fun x => k' == x) = true := by
        rw [List.any_eq_true]
        exact ⟨k', hm, by simp⟩
      rw [this] at hc
      cases hc
    rw [List.nodup_append]
    exact ⟨h, List.nodup_singleton k', by simpa using hnotmem⟩

theorem inv_dictInsert (k' : String) (v : Release) (d : List (String × Release))
    (hv : v.version = k') (h : ∀ p ∈ d, p.2.version = p.1) :
    ∀ p ∈ dictInsert k' v d, p.2.version = p.1 := by
  rw [dictInsert]
  cases hc : (d.map Prod.fst).contains k' with
  | true =>
    rw [if_pos rfl]
    intro p hp
    obtain ⟨q, hq, hqe⟩ := List.mem_map.mp hp
    by_cases hq2 : q.1 = k'
    · rw [if_pos hq2] at hqe
      rw [← hqe]
      exact hv
    · rw [if_neg hq2] at hqe
      rw [← hqe]
      exact h q hq
  | false =>
    simp only [Bool.false_eq_true, if_false]
    intro p hp
    rcases List.mem_append.mp hp with hp' | hp'
    · exact h p hp'
    · rcases List.mem_singleton.mp hp' with rfl
      exact hv

theorem keys_releasesStep (d : List (String × Release)) (e : GithubReleaseEntry)
    (h : (d.map Prod.fst).Nodup) : ((releasesStep d e).map Prod.fst).Nodup := by
  rw [releasesStep]
  cases hg : get_version e.tag_name with
  | none => exact h
  | some w => exact keys_dictInsert w _ d h

theorem inv_releasesStep (d : List (String × Release)) (e : GithubReleaseEntry)
    (h : ∀ p ∈ d, p.2.version = p.1) :
    ∀ p ∈ releasesStep d e, p.2.version = p.1 := by
  rw [releasesStep]
  cases hg : get_version e.tag_name with
  | none => exact h
  | some w => exact inv_dictInsert w _ d rfl h

theorem keys_foldl : ∀ (es : List GithubReleaseEntry) (d : List (String × Release)),
    (d.map Prod.fst).Nodup → (((es.foldl releasesStep d).map Prod.fst)).Nodup := by
  intro es
  induction es with
  | nil => exact fun d h => h
  | cons e es ih =>
    intro d h
    rw [List.foldl_cons]
    exact ih _ (keys_releasesStep d e h)

theorem inv_foldl : ∀ (es : List GithubReleaseEntry) (d : List (String × Release)),
    (∀ p ∈ d, p.2.version = p.1) →
    ∀ p ∈ es.foldl releasesStep d, p.2.version = p.1 := by
  intro es
  induction es with
  | nil => exact fun d h => h
  | cons e es ih =>
    intro d h
    rw [List.foldl_cons]
    exact ih _ (inv_releasesStep d e h)

theorem mem_values_iff : ∀ (d : List (String × Release)),
    (d.map Prod.fst).Nodup → (∀ p ∈ d, p.2.version = p.1) →
    ∀ r : Release, r ∈ d.map Prod.snd ↔ lookupD d r.version = some r := by
  intro d
  induction d with
  | nil => intro _ _ r; simp [lookupD]
  | cons p d ih =>
    intro hk hinv r
    have hk1 : p.1 ∉ d.map Prod.fst := by
      rw [List.map_cons, List.nodup_cons] at hk
      exact hk.1
    have hk2 : (d.map Prod.fst).Nodup := by
      rw [List.map_cons, List.nodup_cons] at hk
      exact hk.2
    have hinv1 : p.2.version = p.1 := hinv p (List.mem_cons_self _ _)
    have hinv2 : ∀ q ∈ d, q.2.version = q.1 := fun q hq => hinv q (List.mem_cons_of_mem _ hq)
    rw [List.map_cons, List.mem_cons, lookupD]
    constructor
    · rintro (rfl | hr)
      · rw [if_pos hinv1.symm]
      · have hl := (ih hk2 hinv2 r).mp hr
        have hne : p.1 ≠ r.version := by
          intro hcontra
          have hmem := lookupD_mem d r.version r hl
          exact hk1 (hcontra ▸ List.mem_map.mpr ⟨(r.version, r), hmem, rfl⟩)
        rw [if_neg hne]
        exact hl
    · intro h
      by_cases hp : p.1 = r.version
      · rw [if_pos hp] at h
        exact Or.inl (Option.some.inj h).symm
      · rw [if_neg hp] at h
        exact Or.inr ((ih hk2 hinv2 r).mpr h)

theorem insertR_perm (le : α → α → Bool) (x : α) :
    ∀ l : List α, List.Perm (insertR le x l) (x :: l) := by
  intro l
  induction l with
  | nil => exact List.Perm.refl _
  | cons y ys ih =>
    rw [insertR]
    by_cases h : le y x = true
    · rw [if_pos h]
      exact (ih.cons y).trans (List.Perm.swap x y ys)
    · rw [if_neg h]

theorem pySorted_foldl_perm (le : α → α → Bool) :
    ∀ (l acc : List α),
      List.Perm (l.foldl (fun a x => insertR le x a) acc) (acc ++ l) := by
  intro l
  induction l with
  | nil => intro acc; simp
  | cons x xs ih =>
    intro acc
    rw [List.foldl_cons]
    refine (ih _).trans ?_
    refine (((insertR_perm le x acc)).append_right xs).trans ?_
    exact List.perm_middle.symm


theorem pySorted_perm (le : α → α → Bool) (l : List α) :
    List.Perm (pySorted le l) l := by
  simpa using pySorted_foldl_perm le l []

/-- C10: `get_releases` returns at most one Release per extracted version —
the dict is keyed by the version string, so its output versions are distinct
— and for each version the surviving record is the one built from the LAST
entry (within the first `top = 5` entries, in input order) whose tag extracts
to that version; earlier entries with the same version are silently
overwritten. -/
theorem C10_get_releases_last_entry_per_version_wins (entries : List GithubReleaseEntry) :
    ((get_releases entries 5).map Release.version).Nodup
    ∧ ∀ r : Release, r ∈ get_releases entries 5 ↔
        ((entries.take 5).filterMap (entryFor r.version)).getLast? = some r := by
  have hkeys : (((entries.take 5).foldl releasesStep []).map Prod.fst).Nodup :=
    keys_foldl (entries.take 5) [] (by simp)
  have hinv : ∀ p ∈ (entries.take 5).foldl releasesStep [], p.2.version = p.1 :=
    inv_foldl (entries.take 5) [] (by simp)
  have hperm : List.Perm (get_releases entries 5)
      (((entries.take 5).foldl releasesStep []).map Prod.snd) :=
    pySorted_perm _ _
  constructor
  · have hmapeq : (((entries.take 5).foldl releasesStep []).map Prod.snd).map Release.version
        = ((entries.take 5).foldl releasesStep []).map Prod.fst := by
      rw [List.map_map]
      exact List.map_congr_left fun p hp => hinv p hp
    have hp2 : List.Perm ((get_releases entries 5).map Release.version)
        (((entries.take 5).foldl releasesStep []).map Prod.fst) := by
      rw [← hmapeq]
      exact hperm.map _
    exact hp2.symm.nodup hkeys
  · intro r
    rw [hperm.mem_iff, mem_values_iff _ hkeys hinv r, lookupD_foldl]
    cases hg : ((entries.take 5).filterMap (entryFor r.version)).getLast? with
    | none => simp [lookupD]
    | some x => exact Iff.rfl

/-- C10 witness: of two top-5 entries both tagged "v1.0", the record built
from the second (later) one is the one returned. -/
theorem C10_last_wins_witness :
    releaseOf ⟨"v1.0", "second", "u2", "a2"⟩ "1.0" ∈ get_releases
      [⟨"v1.0", "first", "u1", "a1"⟩, ⟨"v1.0", "second", "u2", "a2"⟩] 5 :=
  ((C10_get_releases_last_entry_per_version_wins [⟨"v1.0", "first", "u1", "a1"⟩, ⟨"v1.0", "second", "u2", "a2"⟩]).2
    (releaseOf ⟨"v1.0", "second", "u2", "a2"⟩ "1.0")).mpr (by decide)

end Dfvsync
